import Mathlib

/-!
Verification of the caching subsystem of the openbr assistant repository.

The subsystem has three store variants:
  - `Cache`   (src/openclaw-rs/src/cache.rs): an unbounded TTL map,
  - `TimedCache` (src/rust/src/cache.rs): a capacity-bounded LRU map with one TTL,
  - `GroupHistoryCache` (src/rust/src/cache.rs): a per-group bounded FIFO log.

Time is modelled as a natural number of milliseconds; every operation that
reads the clock in the source takes the current instant as an explicit
argument.  The HashMap of the source is modelled as an association list
(keys unique in every reachable state); the lru crate structure is an
association list ordered most-recently-used first.  Rust Duration
constructors are mirrored: from_millis is the identity, from_secs
multiplies by 1000.  Instant elapsed is truncated subtraction, matching
the saturating behaviour of monotonic instants.
-/

/-- Lookup in an association list: the value of the first pair whose key
matches, mirroring HashMap::get (keys are unique in a HashMap). -/
def mapLookup {α : Type} (k : String) : List (String × α) → Option α
  | [] => none
  | (k', v) :: rest => if k' = k then some v else mapLookup k rest

/-- Remove the first pair whose key matches, mirroring HashMap::remove /
the removal of the unique node with this key. -/
def mapErase {α : Type} (k : String) : List (String × α) → List (String × α)
  | [] => []
  | (k', v) :: rest => if k' = k then rest else (k', v) :: mapErase k rest

/-- Insert or overwrite, mirroring HashMap::insert: the first pair with
this key is replaced in place, otherwise the pair is appended. -/
def mapInsert {α : Type} (k : String) (v : α) : List (String × α) → List (String × α)
  | [] => [(k, v)]
  | (k', v') :: rest => if k' = k then (k, v) :: rest else (k', v') :: mapInsert k v rest

/-! ## Cache (TtlStore), src/openclaw-rs/src/cache.rs -/

/-- CacheEntry of src/openclaw-rs/src/cache.rs: a value and an optional
absolute expiry instant. -/
structure CacheEntry where
  value : String
  expires_at : Option Nat
deriving DecidableEq, Repr

/-- Cache of src/openclaw-rs/src/cache.rs: a map from keys to entries and
an optional default TTL in milliseconds. -/
structure Cache where
  store : List (String × CacheEntry)
  default_ttl : Option Nat
deriving DecidableEq, Repr

/-- Cache::new. -/
def Cache.new : Cache := { store := [], default_ttl := none }

/-- Cache::set_default_ttl. -/
def Cache.set_default_ttl (c : Cache) (ttl_ms : Option Nat) : Cache :=
  { c with default_ttl := ttl_ms }

/-- Cache::set: expiry is now + ttl_ms if given, else now + default_ttl
if set, else none. -/
def Cache.set (c : Cache) (now : Nat) (key value : String) (ttl_ms : Option Nat) : Cache :=
  let expires_at := (ttl_ms.or c.default_ttl).map (fun ms => now + ms)
  { c with store := mapInsert key { value := value, expires_at := expires_at } c.store }

/-- Cache::get: returns the value unless the entry carries an expiry
instant strictly in the past, in which case the entry is removed and
absence is returned. -/
def Cache.get (c : Cache) (now : Nat) (key : String) : Option String × Cache :=
  match mapLookup key c.store with
  | some entry =>
    match entry.expires_at with
    | some expires_at =>
      if now > expires_at then (none, { c with store := mapErase key c.store })
      else (some entry.value, c)
    | none => (some entry.value, c)
  | none => (none, c)

/-- Cache::delete: removes by physical presence only and reports whether
a removal occurred. -/
def Cache.delete (c : Cache) (key : String) : Bool × Cache :=
  ((mapLookup key c.store).isSome, { c with store := mapErase key c.store })

/-- Cache::has: defined through get, sharing its expiry semantics. -/
def Cache.has (c : Cache) (now : Nat) (key : String) : Bool × Cache :=
  let r := c.get now key
  (r.1.isSome, r.2)

/-- Cache::cleanup_expired: retains exactly the entries with no expiry or
with now less than or equal to the expiry instant. -/
def Cache.cleanup_expired (c : Cache) (now : Nat) : Cache :=
  { c with store := c.store.filter (fun p => p.2.expires_at.all (fun x => decide (now ≤ x))) }

/-- Cache::keys: sweeps expired entries first, then lists the keys. -/
def Cache.keys (c : Cache) (now : Nat) : List String × Cache :=
  let c' := c.cleanup_expired now
  (c'.store.map Prod.fst, c')

/-- Cache::clear. -/
def Cache.clear (c : Cache) : Cache := { c with store := [] }

/-- Cache::size: the number of physically stored entries. -/
def Cache.size (c : Cache) : Nat := c.store.length

example : ((Cache.new.set 0 "k" "v" (some 5)).get 5 "k").1 = some "v" := by decide
example : ((Cache.new.set 0 "k" "v" (some 5)).get 6 "k").1 = none := by decide

/-! ## TimedCache (LruTtlStore), src/rust/src/cache.rs

The inner structure is the lru crate LruCache, modelled as an association
list ordered most-recently-used first; the least-recently-used pair is
the last element. -/

/-- Duration::from_millis in the millisecond time model. -/
def durationFromMillis (ms : Nat) : Nat := ms

/-- Duration::from_secs in the millisecond time model. -/
def durationFromSecs (s : Nat) : Nat := s * 1000

/-- LruCache::get of the lru crate: on a hit the pair moves to the
most-recently-used position; a miss leaves the list unchanged. -/
def lruGet {α : Type} (m : List (String × α)) (k : String) : Option α × List (String × α) :=
  match mapLookup k m with
  | some v => (some v, (k, v) :: mapErase k m)
  | none => (none, m)

/-- LruCache::put of the lru crate: an existing key is overwritten and
promoted; a new key is pushed at the most-recently-used position, and
when the list is at capacity the least-recently-used pair is evicted
first. -/
def lruPut {α : Type} (m : List (String × α)) (cap : Nat) (k : String) (v : α) :
    List (String × α) :=
  if (mapLookup k m).isSome then
    (k, v) :: mapErase k m
  else if m.length = cap then
    (k, v) :: m.dropLast
  else
    (k, v) :: m

/-- CacheEntry of src/rust/src/cache.rs: a value and its insertion
instant. -/
structure TCacheEntry where
  value : String
  inserted_at : Nat
deriving DecidableEq, Repr

/-- TimedCache of src/rust/src/cache.rs: an LruCache plus a fixed TTL. -/
structure TimedCache where
  inner : List (String × TCacheEntry)
  capacity : Nat
  ttl : Nat
deriving DecidableEq, Repr

/-- TimedCache::new: NonZeroUsize::new(capacity).unwrap_or(100) becomes
the substitution of 100 for a zero capacity; the TTL argument is in
seconds. -/
def TimedCache.new (capacity ttl_seconds : Nat) : TimedCache :=
  { inner := []
    capacity := if capacity = 0 then 100 else capacity
    ttl := durationFromSecs ttl_seconds }

/-- TimedCache::get: a hit younger than the TTL returns the value with
the key promoted; an expired hit pops the entry and returns absence; a
miss returns absence without mutating the order. -/
def TimedCache.get (c : TimedCache) (now : Nat) (key : String) : Option String × TimedCache :=
  match lruGet c.inner key with
  | (some entry, inner') =>
    if now - entry.inserted_at < c.ttl then (some entry.value, { c with inner := inner' })
    else (none, { c with inner := mapErase key inner' })
  | (none, _) => (none, c)

/-- TimedCache::set: put with a fresh insertion instant. -/
def TimedCache.set (c : TimedCache) (now : Nat) (key value : String) : TimedCache :=
  { c with inner := lruPut c.inner c.capacity key { value := value, inserted_at := now } }

/-- TimedCache::len. -/
def TimedCache.len (c : TimedCache) : Nat := c.inner.length

/-- TimedCache::clear. -/
def TimedCache.clear (c : TimedCache) : TimedCache := { c with inner := [] }

/-- One client operation on a TimedCache, for reachable-state
invariants. -/
inductive TCOp where
  | get (now : Nat) (key : String)
  | set (now : Nat) (key value : String)
  | clear
deriving DecidableEq, Repr

/-- Effect of one operation on the TimedCache state. -/
def TCOp.apply (c : TimedCache) : TCOp → TimedCache
  | .get now key => (c.get now key).2
  | .set now key value => c.set now key value
  | .clear => c.clear

/-- Run a list of client operations from a starting state. -/
def TCrun (c : TimedCache) (ops : List TCOp) : TimedCache := ops.foldl TCOp.apply c

/-! ## GroupHistoryCache (GroupHistoryStore), src/rust/src/cache.rs -/

/-- HistoryEntry of src/rust/src/cache.rs. -/
structure HistoryEntry where
  timestamp : Nat
  content : String
deriving DecidableEq, Repr

/-- GroupHistoryCache of src/rust/src/cache.rs: a map from group id to a
history list, with a per-group bound fixed at construction. -/
structure GroupHistoryCache where
  inner : List (String × List HistoryEntry)
  max_entries_per_group : Nat
deriving DecidableEq, Repr

/-- GroupHistoryCache::new: the bound is taken as given, zero included. -/
def GroupHistoryCache.new (max_entries : Nat) : GroupHistoryCache :=
  { inner := [], max_entries_per_group := max_entries }

/-- GroupHistoryCache::add: push at the tail of the group history
(created empty if absent), then remove index 0 when the length exceeds
the bound. -/
def GroupHistoryCache.add (c : GroupHistoryCache) (group_id : String) (entry : HistoryEntry) :
    GroupHistoryCache :=
  let history := ((mapLookup group_id c.inner).getD []) ++ [entry]
  let history' := if history.length > c.max_entries_per_group then history.eraseIdx 0 else history
  { c with inner := mapInsert group_id history' c.inner }

/-- GroupHistoryCache::get: the group history, empty when the group is
unknown. -/
def GroupHistoryCache.get (c : GroupHistoryCache) (group_id : String) : List HistoryEntry :=
  (mapLookup group_id c.inner).getD []

/-- GroupHistoryCache::clear_group. -/
def GroupHistoryCache.clear_group (c : GroupHistoryCache) (group_id : String) : GroupHistoryCache :=
  { c with inner := mapErase group_id c.inner }

/-- One client operation on a GroupHistoryCache. -/
inductive GHOp where
  | add (group_id : String) (entry : HistoryEntry)
  | clearGroup (group_id : String)
deriving DecidableEq, Repr

/-- Effect of one operation on the GroupHistoryCache state. -/
def GHOp.apply (c : GroupHistoryCache) : GHOp → GroupHistoryCache
  | .add g e => c.add g e
  | .clearGroup g => c.clear_group g

/-- Run a list of client operations from a starting state. -/
def GHrun (c : GroupHistoryCache) (ops : List GHOp) : GroupHistoryCache :=
  ops.foldl GHOp.apply c

example :
    ((((TimedCache.new 2 1).set 0 "a" "1").set 0 "b" "2").get 0 "a").2.set 0 "c" "3" =
      { inner := [("c", ⟨"3", 0⟩), ("a", ⟨"1", 0⟩)], capacity := 2, ttl := 1000 } := by
  decide

example :
    (GHrun (GroupHistoryCache.new 3)
      [.add "g" ⟨1, "E1"⟩, .add "g" ⟨2, "E2"⟩, .add "g" ⟨3, "E3"⟩, .add "g" ⟨4, "E4"⟩]).get "g" =
      [⟨2, "E2"⟩, ⟨3, "E3"⟩, ⟨4, "E4"⟩] := by
  decide

/-! ## Association-list lemmas -/

theorem mapLookup_mapInsert_self {α : Type} (k : String) (v : α) (m : List (String × α)) :
    mapLookup k (mapInsert k v m) = some v := by
  induction m with
  | nil => simp [mapInsert, mapLookup]
  | cons p rest ih =>
    obtain ⟨k', v'⟩ := p
    by_cases h : k' = k
    · subst h
      simp [mapInsert, mapLookup]
    · simp [mapInsert, mapLookup, h, ih]

theorem mapLookup_mapInsert_ne {α : Type} {k' k : String} (h : k' ≠ k) (v : α)
    (m : List (String × α)) : mapLookup k (mapInsert k' v m) = mapLookup k m := by
  induction m with
  | nil => simp [mapInsert, mapLookup, h]
  | cons p rest ih =>
    obtain ⟨k'', v''⟩ := p
    by_cases h2 : k'' = k'
    · subst h2
      simp [mapInsert, mapLookup, h]
    · simp [mapInsert, mapLookup, h2, ih]

theorem mapLookup_mapErase_ne {α : Type} {k' k : String} (h : k' ≠ k)
    (m : List (String × α)) : mapLookup k (mapErase k' m) = mapLookup k m := by
  induction m with
  | nil => simp [mapErase]
  | cons p rest ih =>
    obtain ⟨k'', v''⟩ := p
    by_cases h2 : k'' = k'
    · subst h2
      simp [mapErase, mapLookup, h]
    · simp [mapErase, mapLookup, h2, ih]

theorem mapErase_length {α : Type} {k : String} {m : List (String × α)} {v : α}
    (h : mapLookup k m = some v) : (mapErase k m).length + 1 = m.length := by
  induction m with
  | nil => simp [mapLookup] at h
  | cons p rest ih =>
    obtain ⟨k', v'⟩ := p
    by_cases h2 : k' = k
    · simp [mapErase, h2]
    · simp only [mapLookup, if_neg h2] at h
      simp [mapErase, h2, ih h]

theorem mapLookup_mem {α : Type} {k : String} {m : List (String × α)} {v : α}
    (h : mapLookup k m = some v) : (k, v) ∈ m := by
  induction m with
  | nil => simp [mapLookup] at h
  | cons p rest ih =>
    obtain ⟨k', v'⟩ := p
    by_cases h2 : k' = k
    · subst h2
      simp [mapLookup] at h
      simp [h]
    · simp only [mapLookup, if_neg h2] at h
      exact List.mem_cons_of_mem _ (ih h)

theorem mem_mapInsert {α : Type} {p : String × α} {k : String} {v : α}
    {m : List (String × α)} (h : p ∈ mapInsert k v m) : p = (k, v) ∨ p ∈ m := by
  induction m with
  | nil =>
    simp [mapInsert] at h
    exact Or.inl h
  | cons q rest ih =>
    obtain ⟨k', v'⟩ := q
    by_cases h2 : k' = k
    · simp only [mapInsert, if_pos h2, List.mem_cons] at h
      rcases h with h | h
      · exact Or.inl h
      · exact Or.inr (List.mem_cons_of_mem _ h)
    · simp only [mapInsert, if_neg h2, List.mem_cons] at h
      rcases h with h | h
      · exact Or.inr (by simp [h])
      · rcases ih h with h3 | h3
        · exact Or.inl h3
        · exact Or.inr (List.mem_cons_of_mem _ h3)

theorem mem_mapErase {α : Type} {p : String × α} {k : String}
    {m : List (String × α)} (h : p ∈ mapErase k m) : p ∈ m := by
  induction m with
  | nil => simp [mapErase] at h
  | cons q rest ih =>
    obtain ⟨k', v'⟩ := q
    by_cases h2 : k' = k
    · simp only [mapErase, if_pos h2] at h
      exact List.mem_cons_of_mem _ h
    · simp only [mapErase, if_neg h2, List.mem_cons] at h
      rcases h with h | h
      · simp [h]
      · exact List.mem_cons_of_mem _ (ih h)

theorem mapLookup_mapErase_self {α : Type} {k : String} {m : List (String × α)}
    (hnd : (m.map Prod.fst).Nodup) : mapLookup k (mapErase k m) = none := by
  induction m with
  | nil => simp [mapErase, mapLookup]
  | cons p rest ih =>
    obtain ⟨k', v'⟩ := p
    simp only [List.map_cons, List.nodup_cons] at hnd
    by_cases h2 : k' = k
    · subst h2
      simp only [mapErase, if_pos rfl]
      cases h3 : mapLookup k' rest with
      | none => exact h3
      | some v =>
        exact absurd (List.mem_map_of_mem Prod.fst (mapLookup_mem h3)) hnd.1
    · simp [mapErase, mapLookup, h2, ih hnd.2]

/-! ## Claims on Cache (TtlStore) -/

/-- Claim C1, counterexample to the claim as stated: with d = 5, a get
at elapsed time t = 5 (so t ≥ d) does not return absent, because the
source expires an entry only when now is strictly past the expiry
instant. -/
theorem cache_ttl_boundary_counterexample :
    ¬ (((Cache.new.set 0 "k" "v" (some 5)).get (0 + 5) "k").1 = none) := by
  decide

/-- Claim C1 (amended): after set(k, v, ttl = d) at instant t0 with no
intervening operation, a get at elapsed time t ≤ d returns v and a get
at elapsed time t > d returns absent: expiry is strict, so the boundary
instant t = d still returns the value. -/
theorem cache_ttl_correctness (c : Cache) (t0 d t : Nat) (k v : String) :
    (t ≤ d → ((c.set t0 k v (some d)).get (t0 + t) k).1 = some v) ∧
    (t > d → ((c.set t0 k v (some d)).get (t0 + t) k).1 = none) := by
  constructor
  · intro ht
    have hc : ¬ (t0 + t > t0 + d) := by omega
    simp [Cache.set, Cache.get, Option.or, mapLookup_mapInsert_self, hc]
  · intro ht
    have hc : t0 + t > t0 + d := by omega
    simp [Cache.set, Cache.get, Option.or, mapLookup_mapInsert_self, hc]

/-- Claim C1 witness: concrete instance with t0 = 0, d = 5, t = 3 and
t = 7. -/
theorem cache_ttl_correctness_witness :
    ((Cache.new.set 0 "k" "v" (some 5)).get (0 + 3) "k").1 = some "v" ∧
    ((Cache.new.set 0 "k" "v" (some 5)).get (0 + 7) "k").1 = none :=
  ⟨(cache_ttl_correctness Cache.new 0 5 3 "k" "v").1 (by decide),
   (cache_ttl_correctness Cache.new 0 5 7 "k" "v").2 (by decide)⟩

/-- Claim C3: a single get on a physically present but expired entry
returns absent and removes the entry, so the size observed after the get
is one less than the size observed before it. -/
theorem cache_lazy_eviction_size (c : Cache) (now : Nat) (k : String)
    (entry : CacheEntry) (e : Nat)
    (hl : mapLookup k c.store = some entry) (he : entry.expires_at = some e)
    (hx : now > e) :
    ((c.get now k).1 = none) ∧ (((c.get now k).2).size + 1 = c.size) := by
  simp [Cache.get, hl, he, hx, Cache.size, mapErase_length hl]

/-- Claim C3 witness: a key set with TTL 1 at instant 0, read at
instant 2. -/
theorem cache_lazy_eviction_size_witness :
    (((Cache.new.set 0 "k" "v" (some 1)).get 2 "k").1 = none) ∧
    ((((Cache.new.set 0 "k" "v" (some 1)).get 2 "k").2).size + 1 =
      (Cache.new.set 0 "k" "v" (some 1)).size) :=
  cache_lazy_eviction_size (Cache.new.set 0 "k" "v" (some 1)) 2 "k"
    { value := "v", expires_at := some 1 } 1 (by decide) rfl (by decide)

/-- Claim C6: keys sweeps first and then lists, so a key is returned
exactly when the store physically holds an entry for it that is
unexpired at the instant of the call. -/
theorem cache_keys_swept (c : Cache) (now : Nat) (k : String) :
    k ∈ (c.keys now).1 ↔
      ∃ e : CacheEntry, (k, e) ∈ c.store ∧
        e.expires_at.all (fun x => decide (now ≤ x)) = true := by
  simp only [Cache.keys, Cache.cleanup_expired, List.mem_map, List.mem_filter]
  constructor
  · rintro ⟨⟨k', e⟩, ⟨hm, hp⟩, rfl⟩
    exact ⟨e, hm, hp⟩
  · rintro ⟨e, hm, hp⟩
    exact ⟨(k, e), ⟨hm, hp⟩, rfl⟩

/-- Claim C7: a set with no explicit TTL after set_default_ttl d takes
effective expiry now + d; set_default_ttl leaves already stored entries
untouched; and with no explicit and no default TTL the entry is
returned by get at every later instant (never expires). -/
theorem cache_default_ttl_fallback (c : Cache) (d now t : Nat) (k v : String)
    (o : Option Nat) (hnone : c.default_ttl = none) :
    (mapLookup k ((c.set_default_ttl (some d)).set now k v none).store =
      some { value := v, expires_at := some (now + d) }) ∧
    ((c.set_default_ttl o).store = c.store) ∧
    (((c.set now k v none).get t k).1 = some v) := by
  refine ⟨?_, rfl, ?_⟩
  · simp [Cache.set, Cache.set_default_ttl, Option.or, mapLookup_mapInsert_self]
  · simp [Cache.set, Cache.get, Option.or, hnone, mapLookup_mapInsert_self]

/-- Claim C7 witness: fresh cache, d = 500, read back at a late
instant. -/
theorem cache_default_ttl_fallback_witness :
    (mapLookup "a" ((Cache.new.set_default_ttl (some 500)).set 0 "a" "x" none).store =
      some { value := "x", expires_at := some (0 + 500) }) ∧
    ((Cache.new.set_default_ttl (some 7)).store = Cache.new.store) ∧
    (((Cache.new.set 0 "a" "x" none).get 999999 "a").1 = some "x") :=
  cache_default_ttl_fallback Cache.new 500 0 999999 "a" "x" (some 7) rfl

/-- Claim C9: delete tests physical presence only, so on a stored but
expired entry delete removes it (size drops by one) and returns true,
while get and has at the same instant report the key as absent. -/
theorem cache_delete_ignores_expiry (c : Cache) (now : Nat) (k : String)
    (entry : CacheEntry) (e : Nat)
    (hl : mapLookup k c.store = some entry) (he : entry.expires_at = some e)
    (hx : now > e) :
    ((c.delete k).1 = true) ∧ (((c.delete k).2).size + 1 = c.size) ∧
    ((c.get now k).1 = none) ∧ ((c.has now k).1 = false) := by
  refine ⟨?_, ?_, ?_, ?_⟩
  · simp [Cache.delete, hl]
  · simp [Cache.delete, Cache.size, mapErase_length hl]
  · simp [Cache.get, hl, he, hx]
  · simp [Cache.has, Cache.get, hl, he, hx]

/-- Claim C9 witness: a key set with TTL 1 at instant 0, examined at
instant 5. -/
theorem cache_delete_ignores_expiry_witness :
    (((Cache.new.set 0 "k" "v" (some 1)).delete "k").1 = true) ∧
    ((((Cache.new.set 0 "k" "v" (some 1)).delete "k").2).size + 1 =
      (Cache.new.set 0 "k" "v" (some 1)).size) ∧
    (((Cache.new.set 0 "k" "v" (some 1)).get 5 "k").1 = none) ∧
    (((Cache.new.set 0 "k" "v" (some 1)).has 5 "k").1 = false) :=
  cache_delete_ignores_expiry (Cache.new.set 0 "k" "v" (some 1)) 5 "k"
    { value := "v", expires_at := some 1 } 1 (by decide) rfl (by decide)

/-! ## Claims on TimedCache (LruTtlStore) -/

/-- The capacity-bound invariant carried through every operation. -/
def TCInv (c : TimedCache) : Prop := 1 ≤ c.capacity ∧ c.inner.length ≤ c.capacity

theorem lruPut_length_le {α : Type} {m : List (String × α)} {cap : Nat}
    (hcap : 1 ≤ cap) (hlen : m.length ≤ cap) (k : String) (v : α) :
    (lruPut m cap k v).length ≤ cap := by
  unfold lruPut
  split_ifs with h1 h2
  · obtain ⟨w, hw⟩ := Option.isSome_iff_exists.mp h1
    have := mapErase_length hw
    simp only [List.length_cons]
    omega
  · simp only [List.length_cons, List.length_dropLast]
    omega
  · simp only [List.length_cons]
    omega

theorem tcGet_snd_inner (c : TimedCache) (now : Nat) (k : String) :
    ((c.get now k).2).inner.length ≤ c.inner.length ∧
    ((c.get now k).2).capacity = c.capacity := by
  unfold TimedCache.get lruGet
  cases h : mapLookup k c.inner with
  | none => simp
  | some entry =>
    have hlen := mapErase_length h
    by_cases h2 : now - entry.inserted_at < c.ttl
    · simp only [h2, if_true]
      refine ⟨?_, trivial⟩
      simp only [List.length_cons]
      omega
    · simp only [h2, if_false]
      refine ⟨?_, trivial⟩
      simp only [mapErase, eq_self_iff_true, if_true]
      omega

theorem TCOp_apply_inv {c : TimedCache} (h : TCInv c) (op : TCOp) :
    TCInv (TCOp.apply c op) := by
  cases op with
  | get now key =>
    have := tcGet_snd_inner c now key
    exact ⟨this.2 ▸ h.1, le_trans this.1 (this.2 ▸ h.2)⟩
  | set now key value =>
    exact ⟨h.1, lruPut_length_le h.1 h.2 key { value := value, inserted_at := now }⟩
  | clear => exact ⟨h.1, by simp [TCOp.apply, TimedCache.clear]⟩

theorem TCrun_inv {c : TimedCache} (h : TCInv c) (ops : List TCOp) :
    TCInv (TCrun c ops) := by
  induction ops generalizing c with
  | nil => exact h
  | cons op rest ih => exact ih (TCOp_apply_inv h op)

theorem TimedCache_new_inv (cap ttl : Nat) : TCInv (TimedCache.new cap ttl) := by
  constructor
  · simp only [TimedCache.new]
    split_ifs <;> omega
  · simp [TimedCache.new]

/-- Claim C2: after any sequence of completed operations the number of
stored entries never exceeds the capacity fixed at construction; a set
of a new key on a full cache evicts exactly the least-recently-used
pair (the last of the recency list) deterministically; and the
capacity-2 trace set a, set b, get a, set c leaves b absent with a and
c present. -/
theorem timedcache_lru_bound_and_eviction (cap ttl : Nat) (ops : List TCOp)
    (c : TimedCache) (now : Nat) (k v : String)
    (hmiss : mapLookup k c.inner = none) (hfull : c.inner.length = c.capacity) :
    ((TCrun (TimedCache.new cap ttl) ops).inner.length ≤
      (TCrun (TimedCache.new cap ttl) ops).capacity) ∧
    ((c.set now k v).inner =
      (k, { value := v, inserted_at := now }) :: c.inner.dropLast) ∧
    (((((((TimedCache.new 2 1).set 0 "a" "1").set 0 "b" "2").get 0 "a").2.set 0 "c" "3").get
        0 "b").1 = none) ∧
    (((((((TimedCache.new 2 1).set 0 "a" "1").set 0 "b" "2").get 0 "a").2.set 0 "c" "3").get
        0 "a").1 = some "1") ∧
    (((((((TimedCache.new 2 1).set 0 "a" "1").set 0 "b" "2").get 0 "a").2.set 0 "c" "3").get
        0 "c").1 = some "3") := by
  refine ⟨(TCrun_inv (TimedCache_new_inv cap ttl) ops).2, ?_, by decide, by decide, by decide⟩
  simp [TimedCache.set, lruPut, hmiss, hfull]

/-- Claim C2 witness: the capacity-2 trace, with the eviction equation
applied at the full state reached after set a, set b, get a. -/
theorem timedcache_lru_bound_and_eviction_witness :
    ((TCrun (TimedCache.new 2 1) [.set 0 "a" "1"]).inner.length ≤
      (TCrun (TimedCache.new 2 1) [.set 0 "a" "1"]).capacity) ∧
    ((((((TimedCache.new 2 1).set 0 "a" "1").set 0 "b" "2").get 0 "a").2.set 0 "c" "3").inner =
      ("c", { value := "3", inserted_at := 0 }) ::
        (((((TimedCache.new 2 1).set 0 "a" "1").set 0 "b" "2").get 0 "a").2).inner.dropLast) ∧
    (((((((TimedCache.new 2 1).set 0 "a" "1").set 0 "b" "2").get 0 "a").2.set 0 "c" "3").get
        0 "b").1 = none) ∧
    (((((((TimedCache.new 2 1).set 0 "a" "1").set 0 "b" "2").get 0 "a").2.set 0 "c" "3").get
        0 "a").1 = some "1") ∧
    (((((((TimedCache.new 2 1).set 0 "a" "1").set 0 "b" "2").get 0 "a").2.set 0 "c" "3").get
        0 "c").1 = some "3") :=
  timedcache_lru_bound_and_eviction 2 1 [.set 0 "a" "1"]
    (((((TimedCache.new 2 1).set 0 "a" "1").set 0 "b" "2").get 0 "a").2) 0 "c" "3"
    (by decide) (by decide)

/-- Claim C4: a get on a key whose entry is at least the fixed TTL old
removes the entry and returns absent, whatever the capacity and the
rest of the state; afterwards the key is no longer found. -/
theorem timedcache_ttl_lazy_removal (c : TimedCache) (now : Nat) (k : String)
    (entry : TCacheEntry)
    (hl : mapLookup k c.inner = some entry)
    (hexp : c.ttl ≤ now - entry.inserted_at)
    (hnd : (c.inner.map Prod.fst).Nodup) :
    ((c.get now k).1 = none) ∧ (mapLookup k ((c.get now k).2).inner = none) := by
  have h2 : ¬ (now - entry.inserted_at < c.ttl) := by omega
  unfold TimedCache.get lruGet
  simp only [hl, h2, if_false]
  refine ⟨trivial, ?_⟩
  simp only [mapErase, eq_self_iff_true, if_true]
  exact mapLookup_mapErase_self hnd

/-- Claim C4 witness: capacity 10, TTL one second, one key inserted at
instant 0 and read at instant 1500. -/
theorem timedcache_ttl_lazy_removal_witness :
    ((((TimedCache.new 10 1).set 0 "k" "v").get 1500 "k").1 = none) ∧
    (mapLookup "k" ((((TimedCache.new 10 1).set 0 "k" "v").get 1500 "k").2).inner = none) :=
  timedcache_ttl_lazy_removal ((TimedCache.new 10 1).set 0 "k" "v") 1500 "k"
    { value := "v", inserted_at := 0 } (by decide) (by decide) (by decide)

/-- Claim C8: a zero capacity is silently replaced by the default 100,
yielding a state identical to construction with capacity 100, and any
positive capacity is kept as given. -/
theorem timedcache_zero_capacity_default (cap ttl_seconds : Nat) (hpos : 1 ≤ cap) :
    (TimedCache.new 0 ttl_seconds = TimedCache.new 100 ttl_seconds) ∧
    ((TimedCache.new cap ttl_seconds).capacity = cap) := by
  constructor
  · rfl
  · simp only [TimedCache.new]
    rw [if_neg (by omega)]

/-- Claim C8 witness: capacity 7 is kept; capacity 0 equals capacity
100. -/
theorem timedcache_zero_capacity_default_witness :
    (TimedCache.new 0 5 = TimedCache.new 100 5) ∧
    ((TimedCache.new 7 5).capacity = 7) :=
  timedcache_zero_capacity_default 7 5 (by decide)

/-! ## Claims on GroupHistoryCache (GroupHistoryStore) -/

/-- The per-group bound invariant: the bound is the construction value
and every stored history respects it. -/
def GHInv (b : Nat) (c : GroupHistoryCache) : Prop :=
  c.max_entries_per_group = b ∧ ∀ g l, (g, l) ∈ c.inner → l.length ≤ b

theorem GHadd_inv {b : Nat} {c : GroupHistoryCache} (hI : GHInv b c)
    (g : String) (e : HistoryEntry) : GHInv b (c.add g e) := by
  obtain ⟨hmax, hmem⟩ := hI
  refine ⟨hmax, ?_⟩
  intro g' l hl
  have h0le : ((mapLookup g c.inner).getD []).length ≤ b := by
    cases hc : mapLookup g c.inner with
    | none => simp
    | some l0 => simpa using hmem g l0 (mapLookup_mem hc)
  simp only [GroupHistoryCache.add] at hl
  rcases mem_mapInsert hl with heq | hold
  · rw [Prod.ext_iff] at heq
    obtain ⟨-, rfl⟩ := heq
    split_ifs with hlen
    · cases hgd : (mapLookup g c.inner).getD [] with
      | nil => simp
      | cons a t =>
        rw [hgd] at h0le
        show (t ++ [e]).length ≤ b
        simp only [List.length_append, List.length_cons, List.length_nil] at h0le ⊢
        omega
    · rw [hmax] at hlen
      show (((mapLookup g c.inner).getD []) ++ [e]).length ≤ b
      simp only [List.length_append, List.length_cons, List.length_nil] at hlen ⊢
      omega
  · exact hmem g' l hold

theorem GHclear_inv {b : Nat} {c : GroupHistoryCache} (hI : GHInv b c)
    (g : String) : GHInv b (c.clear_group g) :=
  ⟨hI.1, fun g' l hl => hI.2 g' l (mem_mapErase hl)⟩

theorem GHOp_apply_inv {b : Nat} {c : GroupHistoryCache} (hI : GHInv b c)
    (op : GHOp) : GHInv b (GHOp.apply c op) := by
  cases op with
  | add g e => exact GHadd_inv hI g e
  | clearGroup g => exact GHclear_inv hI g

theorem GHrun_inv {b : Nat} {c : GroupHistoryCache} (hI : GHInv b c)
    (ops : List GHOp) : GHInv b (GHrun c ops) := by
  induction ops generalizing c with
  | nil => exact hI
  | cons op rest ih => exact ih (GHOp_apply_inv hI op)

theorem GH_new_inv (b : Nat) : GHInv b (GroupHistoryCache.new b) :=
  ⟨rfl, by simp [GroupHistoryCache.new]⟩

theorem GHInv_get_le {b : Nat} {c : GroupHistoryCache} (hI : GHInv b c)
    (g : String) : (c.get g).length ≤ b := by
  unfold GroupHistoryCache.get
  cases hc : mapLookup g c.inner with
  | none => simp
  | some l => simpa using hI.2 g l (mapLookup_mem hc)

/-- The history stored for g after an add, written through get: push at
the tail, then drop the head exactly when the bound is exceeded. -/
theorem GHadd_get_eq (c : GroupHistoryCache) (g : String) (e : HistoryEntry) :
    (c.add g e).get g =
      if c.max_entries_per_group < (c.get g).length + 1
      then ((c.get g) ++ [e]).eraseIdx 0
      else (c.get g) ++ [e] := by
  simp only [GroupHistoryCache.add, GroupHistoryCache.get, mapLookup_mapInsert_self,
    Option.getD_some, List.length_append, List.length_cons, List.length_nil]

/-- Claim C5: with bound at least one, after any sequence of operations
every group history length is at most the bound; an add on a group at
or above the bound removes exactly the oldest entry (the head) and
appends the new one at the tail, so one add never removes more than one
entry; an add below the bound only appends; and with bound 3 adding
E1..E4 in order leaves exactly E2, E3, E4. -/
theorem grouphistory_fifo_bound (b : Nat) (ops : List GHOp) (g : String)
    (c : GroupHistoryCache) (e : HistoryEntry)
    (hpos : 1 ≤ c.max_entries_per_group) :
    (((GHrun (GroupHistoryCache.new b) ops).get g).length ≤ b) ∧
    (c.max_entries_per_group ≤ (c.get g).length →
      (c.add g e).get g = (c.get g).tail ++ [e]) ∧
    ((c.get g).length < c.max_entries_per_group →
      (c.add g e).get g = (c.get g) ++ [e]) ∧
    ((GHrun (GroupHistoryCache.new 3)
        [.add "g" ⟨1, "E1"⟩, .add "g" ⟨2, "E2"⟩, .add "g" ⟨3, "E3"⟩,
         .add "g" ⟨4, "E4"⟩]).get "g" = [⟨2, "E2"⟩, ⟨3, "E3"⟩, ⟨4, "E4"⟩]) := by
  refine ⟨GHInv_get_le (GHrun_inv (GH_new_inv b) ops) g, ?_, ?_, by decide⟩
  · intro hge
    rw [GHadd_get_eq, if_pos (by omega)]
    cases hgl : c.get g with
    | nil =>
      rw [hgl] at hge
      simp at hge
      omega
    | cons a t => simp
  · intro hlt
    rw [GHadd_get_eq, if_neg (by omega)]

/-- Claim C5 witness: the bound-3 trace, with the overflow equation
applied at the full state reached after the first three adds. -/
theorem grouphistory_fifo_bound_witness :
    (((GHrun (GroupHistoryCache.new 3)
        [.add "g" ⟨1, "E1"⟩, .add "g" ⟨2, "E2"⟩, .add "g" ⟨3, "E3"⟩,
         .add "g" ⟨4, "E4"⟩]).get "g").length ≤ 3) ∧
    (((GHrun (GroupHistoryCache.new 3)
        [.add "g" ⟨1, "E1"⟩, .add "g" ⟨2, "E2"⟩, .add "g" ⟨3, "E3"⟩]).add "g"
        ⟨4, "E4"⟩).get "g" =
      ((GHrun (GroupHistoryCache.new 3)
        [.add "g" ⟨1, "E1"⟩, .add "g" ⟨2, "E2"⟩, .add "g" ⟨3, "E3"⟩]).get "g").tail ++
        [⟨4, "E4"⟩]) ∧
    ((GHrun (GroupHistoryCache.new 3)
        [.add "g" ⟨1, "E1"⟩, .add "g" ⟨2, "E2"⟩, .add "g" ⟨3, "E3"⟩,
         .add "g" ⟨4, "E4"⟩]).get "g" = [⟨2, "E2"⟩, ⟨3, "E3"⟩, ⟨4, "E4"⟩]) :=
  have h := grouphistory_fifo_bound 3
    [.add "g" ⟨1, "E1"⟩, .add "g" ⟨2, "E2"⟩, .add "g" ⟨3, "E3"⟩, .add "g" ⟨4, "E4"⟩] "g"
    (GHrun (GroupHistoryCache.new 3)
      [.add "g" ⟨1, "E1"⟩, .add "g" ⟨2, "E2"⟩, .add "g" ⟨3, "E3"⟩]) ⟨4, "E4"⟩ (by decide)
  ⟨h.1, h.2.1 (by decide), h.2.2.2⟩

/-- Claim C10: the constructor keeps a zero bound without substitution
or error, and with bound zero each add pushes its entry and at once
removes index 0 (the entry itself), so after any sequence of operations
every group reads back as the empty sequence. -/
theorem grouphistory_zero_bound (ops : List GHOp) (g : String) :
    ((GroupHistoryCache.new 0).max_entries_per_group = 0) ∧
    ((GHrun (GroupHistoryCache.new 0) ops).get g = []) := by
  refine ⟨rfl, ?_⟩
  have h := GHInv_get_le (GHrun_inv (GH_new_inv 0) ops) g
  exact List.length_eq_zero.mp (Nat.le_zero.mp h)
